import Mathlib

/-!
Verification of the task-orchestration frontend of the tauri-deno example
repository.  The React component `src/App.tsx` keeps the task list, reacts to
`task-state-changed` events from the backend, and issues the backend commands
`run_task`, `stop_task` and `clear_completed_tasks`.  The Deno bootstrap
script `src-tauri/src/deno/bootstrap.js` installs the `RuntimeExtension` host
bridge (a return-value capability and a directory-path capability) inside each
sandbox.  The Rust side of the backend is not part of the sources verified
here; where a property depends on it, the corresponding definition is modelled
from the specification and marked as such in its doc comment.

All state handlers from `App.tsx` are embedded as pure functions on the task
list; the `invoke` promise outcome is passed explicitly as an `InvokeOutcome`
argument, so the success path and the rejection (catch) path of each handler
are both covered.
-/

namespace TauriDeno

/-- The five task states of the frontend `Task` type in `App.tsx`. -/
inductive TaskState where
  | running
  | completed
  | error
  | stopped
  | stopping
  deriving DecidableEq, Repr

/-- The four states a `task-state-changed` event payload can carry: the
`InternalTask` type in `App.tsx` has state
`"running" | "completed" | "error" | "stopped"` — note the absence of
`"stopping"`. -/
inductive InternalState where
  | running
  | completed
  | error
  | stopped
  deriving DecidableEq, Repr

/-- Conversion of a payload state into a frontend task state, as performed by
the assignment `state: task.state` in `handleTaskStateChanged`. -/
def internalToTaskState : InternalState → TaskState
  | .running => .running
  | .completed => .completed
  | .error => .error
  | .stopped => .stopped

/-- Terminal states per §4.2 of the spec: `completed`, `error`, `stopped`. -/
def isTerminal : TaskState → Bool
  | .completed => true
  | .error => true
  | .stopped => true
  | .running => false
  | .stopping => false

/-! ### JSON values

The host bridge serializes the script's return value with `JSON.stringify`
(`bootstrap.js`) and the frontend recovers it with `JSON.parse`
(`handleTaskStateChanged`).  JSON values are modelled with integer numbers
(the scripting engine's floats are outside this embedding); `stringify`
below reproduces `JSON.stringify`'s output grammar — including string
escaping — and `parse` models `JSON.parse` on that (whitespace-free)
grammar. -/

inductive Json where
  | null : Json
  | bool (b : Bool) : Json
  | num (n : Int) : Json
  | str (s : String) : Json
  | arr (elems : List Json) : Json
  | obj (members : List (String × Json)) : Json

/-- Decimal digit character, `48 + d` being the code point of the digit. -/
def digitChar (d : Nat) : Char := Char.ofNat (48 + d)

/-- Lowercase hexadecimal digit character, as emitted by `JSON.stringify`
in `\u00xx` escapes. -/
def hexDigitChar (d : Nat) : Char :=
  if d < 10 then Char.ofNat (48 + d) else Char.ofNat (87 + d)

/-- Decimal digits of a natural number, least significant first; the fuel
argument (always instantiated with the number itself, an upper bound on the
digit count) keeps the recursion structural. -/
def natDigitsRev (fuel m : Nat) : List Nat :=
  match fuel with
  | 0 => []
  | fuel + 1 => if m = 0 then [] else m % 10 :: natDigitsRev fuel (m / 10)

/-- Decimal digits of a natural number, most significant first. -/
def natChars (m : Nat) : List Char := (natDigitsRev m m).reverse.map digitChar

/-- Decimal representation of an integer as printed by `JSON.stringify`. -/
def intChars (n : Int) : List Char :=
  if n < 0 then '-' :: natChars n.natAbs
  else if n = 0 then ['0']
  else natChars n.natAbs

/-- Escape of one string character, following `JSON.stringify`'s quoting:
quote and backslash get a backslash escape, the named control characters get
their two-character escapes, the remaining control characters get a
`\u00xx` escape, and every other character is emitted verbatim. -/
def escapeChar (c : Char) : List Char :=
  if c = '"' then ['\\', '"']
  else if c = '\\' then ['\\', '\\']
  else if c = '\x08' then ['\\', 'b']
  else if c = '\t' then ['\\', 't']
  else if c = '\n' then ['\\', 'n']
  else if c = '\x0c' then ['\\', 'f']
  else if c = '\r' then ['\\', 'r']
  else if c.toNat < 32 then
    ['\\', 'u', '0', '0', hexDigitChar (c.toNat / 16), hexDigitChar (c.toNat % 16)]
  else [c]

/-- Escape of a whole character list. -/
def escapeList : List Char → List Char
  | [] => []
  | c :: cs => escapeChar c ++ escapeList cs

/-- A JSON string literal: the escaped contents between two quotes. -/
def quoteChars (s : String) : List Char := '"' :: (escapeList s.data ++ ['"'])

/-- The keyword the `null` value prints as. -/
def nullChars : List Char := ['n', 'u', 'l', 'l']

/-- The keyword `true` prints as. -/
def trueChars : List Char := ['t', 'r', 'u', 'e']

/-- The keyword `false` prints as. -/
def falseChars : List Char := ['f', 'a', 'l', 's', 'e']

mutual

/-- Characters of `JSON.stringify` applied to a JSON value (no whitespace,
members in order). -/
def stringifyChars : Json → List Char
  | .null => nullChars
  | .bool true => trueChars
  | .bool false => falseChars
  | .num n => intChars n
  | .str s => quoteChars s
  | .arr [] => ['[', ']']
  | .arr (v :: vs) => '[' :: (stringifyChars v ++ arrTailChars vs)
  | .obj [] => ['{', '}']
  | .obj (m :: ms) => '{' :: (memberChars m ++ objTailChars ms)

/-- Remaining elements of an array: each preceded by a comma, then the
closing bracket. -/
def arrTailChars : List Json → List Char
  | [] => [']']
  | v :: vs => ',' :: (stringifyChars v ++ arrTailChars vs)

/-- One object member: quoted key, colon, value. -/
def memberChars : String × Json → List Char
  | (k, v) => quoteChars k ++ ':' :: stringifyChars v

/-- Remaining members of an object: each preceded by a comma, then the
closing brace. -/
def objTailChars : List (String × Json) → List Char
  | [] => ['}']
  | m :: ms => ',' :: (memberChars m ++ objTailChars ms)

end

namespace JSON

/-- Model of the `JSON.stringify` builtin used by `returnValue` in
`bootstrap.js`. -/
def stringify (v : Json) : String := (stringifyChars v).asString

end JSON

/-! ### JSON parsing

A recursive-descent reader of the grammar `JSON.stringify` emits.  It models
the `JSON.parse` builtin used in `handleTaskStateChanged` (on the
whitespace-free strings the bridge produces; a failing parse is `none`,
standing for the exception `JSON.parse` would throw). -/

/-- Decimal digit test on a character. -/
def isDigitChar (c : Char) : Bool := decide (48 ≤ c.toNat) && decide (c.toNat ≤ 57)

/-- Numeric value of a hexadecimal digit character (either case). -/
def parseHexDigit (c : Char) : Option Nat :=
  if 48 ≤ c.toNat ∧ c.toNat ≤ 57 then some (c.toNat - 48)
  else if 97 ≤ c.toNat ∧ c.toNat ≤ 102 then some (c.toNat - 87)
  else if 65 ≤ c.toNat ∧ c.toNat ≤ 70 then some (c.toNat - 55)
  else none

/-- Numeric value of a big-endian list of decimal digit characters. -/
def charsToNat (cs : List Char) : Nat :=
  Nat.ofDigits 10 ((cs.map fun c => c.toNat - 48).reverse)

/-- Prepends a character to the string being accumulated by
`parseStringBody`. -/
def consStr (c : Char) : Option (List Char × List Char) → Option (List Char × List Char)
  | some (cs, r) => some (c :: cs, r)
  | none => none

/-- Reads the body of a JSON string literal (the opening quote already
consumed) up to the closing quote, undoing the escapes of `escapeChar`. -/
def parseStringBody : List Char → Option (List Char × List Char)
  | [] => none
  | c :: rest =>
    if c = '"' then some ([], rest)
    else if c = '\\' then
      match rest with
      | [] => none
      | e :: rest2 =>
        if e = '"' then consStr '"' (parseStringBody rest2)
        else if e = '\\' then consStr '\\' (parseStringBody rest2)
        else if e = '/' then consStr '/' (parseStringBody rest2)
        else if e = 'b' then consStr '\x08' (parseStringBody rest2)
        else if e = 'f' then consStr '\x0c' (parseStringBody rest2)
        else if e = 'n' then consStr '\n' (parseStringBody rest2)
        else if e = 'r' then consStr '\r' (parseStringBody rest2)
        else if e = 't' then consStr '\t' (parseStringBody rest2)
        else if e = 'u' then
          match rest2 with
          | d1 :: d2 :: d3 :: d4 :: rest3 =>
            match parseHexDigit d1, parseHexDigit d2, parseHexDigit d3, parseHexDigit d4 with
            | some h1, some h2, some h3, some h4 =>
              consStr (Char.ofNat (((h1 * 16 + h2) * 16 + h3) * 16 + h4)) (parseStringBody rest3)
            | _, _, _, _ => none
          | _ => none
        else none
    else consStr c (parseStringBody rest)

/-- Reads a JSON number token (integral: optional minus sign, then decimal
digits). -/
def parseNumber (s : List Char) : Option (Json × List Char) :=
  match s with
  | [] => none
  | c :: rest =>
    if c = '-' then
      let ds := rest.takeWhile isDigitChar
      if ds.isEmpty then none
      else some (.num (-(charsToNat ds : Int)), rest.dropWhile isDigitChar)
    else
      let ds := (c :: rest).takeWhile isDigitChar
      if ds.isEmpty then none
      else some (.num ((charsToNat ds : Int)), (c :: rest).dropWhile isDigitChar)

/-- Consumes an expected literal character sequence from the front of the
input, returning the remainder on success. -/
def expectChars : List Char → List Char → Option (List Char)
  | [], s => some s
  | _ :: _, [] => none
  | c :: lit, d :: s => if d = c then expectChars lit s else none

/-- Consumes the colon between an object key and its value. -/
def expectColon : List Char → Option (List Char)
  | [] => none
  | c :: r => if c = ':' then some r else none

mutual

/-- Reads one JSON value from the front of `s`; `fuel` bounds the recursion
and decreases on every step into a nested value. -/
def parseValue (fuel : Nat) (s : List Char) : Option (Json × List Char) :=
  match fuel, s with
  | 0, _ => none
  | _ + 1, [] => none
  | fuel' + 1, c :: rest =>
    if c = 'n' then (expectChars ['u', 'l', 'l'] rest).map fun r => (Json.null, r)
    else if c = 't' then (expectChars ['r', 'u', 'e'] rest).map fun r => (Json.bool true, r)
    else if c = 'f' then (expectChars ['a', 'l', 's', 'e'] rest).map fun r => (Json.bool false, r)
    else if c = '"' then (parseStringBody rest).map fun p => (Json.str p.1.asString, p.2)
    else if c = '[' then parseArrStart fuel' rest
    else if c = '{' then parseObjStart fuel' rest
    else parseNumber (c :: rest)
termination_by (fuel, 0)

/-- Reads the inside of an array after the opening bracket: empty array or
first element followed by the element tail. -/
def parseArrStart (fuel : Nat) (s : List Char) : Option (Json × List Char) :=
  match s with
  | [] => none
  | c2 :: rest2 =>
    if c2 = ']' then some (.arr [], rest2)
    else
      (parseValue fuel (c2 :: rest2)).bind fun p =>
        (parseArrTail fuel p.2).map fun q => (Json.arr (p.1 :: q.1), q.2)
termination_by (fuel, 2)

/-- Reads the rest of an array after one element: either the closing bracket
or a comma followed by a further element. -/
def parseArrTail (fuel : Nat) (s : List Char) : Option (List Json × List Char) :=
  match fuel, s with
  | 0, _ => none
  | _ + 1, [] => none
  | fuel' + 1, c :: rest =>
    if c = ']' then some ([], rest)
    else if c = ',' then
      (parseValue fuel' rest).bind fun p =>
        (parseArrTail fuel' p.2).map fun q => (p.1 :: q.1, q.2)
    else none
termination_by (fuel, 1)

/-- Reads the inside of an object after the opening brace: empty object or
first member followed by the member tail. -/
def parseObjStart (fuel : Nat) (s : List Char) : Option (Json × List Char) :=
  match s with
  | [] => none
  | c2 :: rest2 =>
    if c2 = '}' then some (.obj [], rest2)
    else if c2 = '"' then
      (parseObjMember fuel rest2).map fun p => (Json.obj p.1, p.2)
    else none
termination_by (fuel, 3)

/-- Reads one `key:value` member (the key's opening quote already consumed)
followed by the member tail. -/
def parseObjMember (fuel : Nat) (s : List Char) :
    Option (List (String × Json) × List Char) :=
  (parseStringBody s).bind fun kp =>
    (expectColon kp.2).bind fun r2 =>
      (parseValue fuel r2).bind fun vp =>
        (parseObjTail fuel vp.2).map fun mp => ((kp.1.asString, vp.1) :: mp.1, mp.2)
termination_by (fuel, 2)

/-- Reads the rest of an object after one member: either the closing brace
or a comma followed by a further member. -/
def parseObjTail (fuel : Nat) (s : List Char) :
    Option (List (String × Json) × List Char) :=
  match fuel, s with
  | 0, _ => none
  | _ + 1, [] => none
  | fuel' + 1, c :: rest =>
    if c = '}' then some ([], rest)
    else if c = ',' then
      match rest with
      | [] => none
      | c2 :: rest2 => if c2 = '"' then parseObjMember fuel' rest2 else none
    else none
termination_by (fuel, 1)

end

namespace JSON

/-- Model of the `JSON.parse` builtin used in `handleTaskStateChanged`:
reads one value and requires the whole input to be consumed. -/
def parse (s : String) : Option Json :=
  match parseValue (s.data.length + 1) s.data with
  | some (v, []) => some v
  | _ => none

end JSON

/-! ### The frontend task list (`App.tsx`)

Each `setTasks` call of `App.tsx` is embedded as a pure function on the task
list.  The outcome of an awaited `invoke` is passed explicitly, so a
handler's `try` path and its `catch` path are both functions of that
outcome. -/

/-- The frontend `Task` record of `App.tsx` (`result` is the already-parsed
return value, `error` the backend error string; both optional). -/
structure Task where
  id : String
  code : String
  state : TaskState
  result : Option Json
  error : Option String

/-- The `task-state-changed` event payload (`InternalTask` in `App.tsx`). -/
structure InternalTask where
  id : String
  state : InternalState
  return_value : Option String
  error : Option String

/-- The result decoded from a payload, as in `handleTaskStateChanged`:
`JSON.parse(task.return_value)` guarded by JS truthiness of the string
(an absent or empty `return_value` yields no result). -/
def payloadResult (e : InternalTask) : Option Json :=
  match e.return_value with
  | none => none
  | some s => if s = "" then none else JSON.parse s

/-- The `setTasks` update of `handleTaskStateChanged`: every entry whose id
equals the payload's id gets the payload's state, decoded result and error;
all other entries are returned as they are. -/
def handleTaskStateChanged (e : InternalTask) (tasks : List Task) : List Task :=
  tasks.map fun t =>
    if t.id = e.id then
      { t with state := internalToTaskState e.state, result := payloadResult e, error := e.error }
    else t

/-- Outcome of an awaited backend `invoke`: fulfilled, or rejected with the
caught value. -/
inductive InvokeOutcome where
  | ok : InvokeOutcome
  | rejected (err : Json) : InvokeOutcome

/-- The object `{ error }` built in every `catch` block of `App.tsx`: the
rejected value wrapped under the key `"error"`. -/
def rejectionRecord (err : Json) : Json := .obj [("error", err)]

/-- The `setTasks` update of each `catch` block: the entry with the given id
gets state `error` and the rejection record as its `result` (its `error`
field is left as it was). -/
def failTaskUpdate (taskId : String) (err : Json) (tasks : List Task) : List Task :=
  tasks.map fun t =>
    if t.id = taskId then { t with state := .error, result := some (rejectionRecord err) } else t

/-- `handleRunCode`: appends a fresh task in state `running`, then invokes
`run_task`; on rejection the new entry is moved to state `error` with the
rejection record as its result. -/
def handleRunCode (newTaskId code : String) (outcome : InvokeOutcome) (tasks : List Task) :
    List Task :=
  let ts := tasks ++ [{ id := newTaskId, code := code, state := .running,
                        result := none, error := none }]
  match outcome with
  | .ok => ts
  | .rejected err => failTaskUpdate newTaskId err ts

/-- The optimistic update of `handleReplayTask`: the entry with the given id
is put back into state `running` (its previous `result` and `error` fields
are kept by the spread). -/
def replayUpdate (taskId : String) (tasks : List Task) : List Task :=
  tasks.map fun t => if t.id = taskId then { t with state := .running } else t

/-- `handleReplayTask`: optimistic `running` update, then `invoke("run_task")`
with the task's stored code; on rejection the entry is moved to `error`. -/
def handleReplayTask (taskId : String) (outcome : InvokeOutcome) (tasks : List Task) :
    List Task :=
  let ts := replayUpdate taskId tasks
  match outcome with
  | .ok => ts
  | .rejected err => failTaskUpdate taskId err ts

/-- The optimistic update of `handleStopTask`: the entry with the given id is
put into state `stopping`, whatever its current state. -/
def stopTaskUpdate (taskId : String) (tasks : List Task) : List Task :=
  tasks.map fun t => if t.id = taskId then { t with state := .stopping } else t

/-- A backend command issued through `invoke`. -/
inductive BackendCommand where
  | run_task (taskId code : String)
  | stop_task (taskId : String)
  | clear_completed_tasks
  deriving DecidableEq

/-- `handleStopTask`: sets the entry to `stopping`, invokes `stop_task` for
exactly that id, and on rejection moves the entry to `error` with the
rejection record; the handler catches the rejection rather than rethrowing,
so it always returns a task list. -/
def handleStopTask (taskId : String) (outcome : InvokeOutcome) (tasks : List Task) :
    List Task × BackendCommand :=
  let ts := stopTaskUpdate taskId tasks
  match outcome with
  | .ok => (ts, .stop_task taskId)
  | .rejected err => (failTaskUpdate taskId err ts, .stop_task taskId)

/-- `handleClearCompletedTasks`: keeps exactly the entries whose state is
`running` or `stopping`. -/
def handleClearCompletedTasks (tasks : List Task) : List Task :=
  tasks.filter fun t => decide (t.state = .running) || decide (t.state = .stopping)

/-! ### The host bridge (`bootstrap.js`)

`bootstrap.js` assigns `globalThis.RuntimeExtension = { returnValue,
documentDir }`: an object with exactly two function members.  `returnValue`
forwards `JSON.stringify(value)` to the `return_value` op together with the
current task's id; `documentDir` forwards to the `document_dir` op. -/

/-- A call into the native ops, as issued by the bridge functions. -/
inductive OpCall where
  | return_value (taskId : String) (value : String)
  | document_dir
  deriving DecidableEq

/-- The two capabilities the bridge object carries. -/
inductive Capability where
  | recordReturnValue
  | resolveDirectoryPath
  deriving DecidableEq

/-- The members of the `RuntimeExtension` object literal in `bootstrap.js`,
in declaration order: property name paired with the capability it denotes. -/
def runtimeExtensionMembers : List (String × Capability) :=
  [("returnValue", .recordReturnValue), ("documentDir", .resolveDirectoryPath)]

/-- Behaviour of a bridge member when called inside the sandbox whose
installed task id is `taskId`: `returnValue(v)` issues
`return_value(RuntimeExtension.taskId, JSON.stringify(v))`, `documentDir()`
issues `document_dir()`. -/
def invokeCapability (taskId : String) : Capability → Json → OpCall
  | .recordReturnValue, v => .return_value taskId (JSON.stringify v)
  | .resolveDirectoryPath, _ => .document_dir

/-- The task id an op call is attributed to, if any. -/
def opTaskId : OpCall → Option String
  | .return_value tid _ => some tid
  | .document_dir => none

/-! ### The backend registry (modelled from the spec)

The Rust side of the repository (the `run_task`, `stop_task` and
`clear_completed_tasks` commands and the task hashmaps) is not among the
verified sources; the registry operations below are modelled from the
specification where a claim needs them. -/

/-- Backend ledger: external task id mapped to its lifecycle state. -/
abbrev Registry := List (String × TaskState)

/-- The orchestrator error taxonomy of §7 relevant to submission and
cancellation. -/
inductive OrchestratorError where
  | DuplicateTaskError
  | TaskNotFoundError
  deriving DecidableEq

/-- Modelled from the spec: the Rust `run_task` command (`Submit` in §4.1) is
not among the sources.  Per §4.1 and §4.2 it fails with `DuplicateTaskError`
when the id is already registered in a non-terminal state, and otherwise
registers (or, for a replay of a terminal instance, re-registers) the id in
state `running`. -/
def submitTask (reg : Registry) (taskId : String) : Except OrchestratorError Registry :=
  match reg.lookup taskId with
  | some st =>
    if isTerminal st then
      .ok (reg.map fun p => if p.1 = taskId then (p.1, TaskState.running) else p)
    else .error .DuplicateTaskError
  | none => .ok ((taskId, TaskState.running) :: reg)

/-- The record produced by `handleTaskStateChanged` for a matching entry. -/
def notifiedTask (e : InternalTask) (t : Task) : Task :=
  { t with state := internalToTaskState e.state, result := payloadResult e, error := e.error }

/-- Holds when a character list does not begin with a decimal digit, so that
a number token read right before it ends exactly there. -/
def numStop : List Char → Prop
  | [] => True
  | c :: _ => isDigitChar c = false

mutual

/-- Structural size of a JSON value; bounds the fuel the parser needs. -/
def jsize : Json → Nat
  | .null => 1
  | .bool _ => 1
  | .num _ => 1
  | .str _ => 1
  | .arr es => 1 + jsizeElems es
  | .obj ms => 1 + jsizeMembers ms

def jsizeElems : List Json → Nat
  | [] => 1
  | v :: vs => jsize v + jsizeElems vs

def jsizeMembers : List (String × Json) → Nat
  | [] => 1
  | m :: ms => jsize m.2 + jsizeMembers ms

end

/-! ### Shared lemmas -/

theorem mem_handleClearCompletedTasks {t : Task} {tasks : List Task} :
    t ∈ handleClearCompletedTasks tasks ↔
      t ∈ tasks ∧ (t.state = .running ∨ t.state = .stopping) := by
  simp [handleClearCompletedTasks, List.mem_filter]

theorem isTerminal_eq_false_iff (s : TaskState) :
    isTerminal s = false ↔ s = .running ∨ s = .stopping := by
  cases s <;> simp [isTerminal]

theorem task_map_eq_self {f : Task → Task} {tasks : List Task}
    (h : ∀ t ∈ tasks, f t = t) : tasks.map f = tasks :=
  (List.map_congr_left h).trans tasks.map_id

theorem mem_clear_iterate (n : Nat) : ∀ (tasks : List Task) (t : Task), t ∈ tasks →
    (t.state = .running ∨ t.state = .stopping) →
    t ∈ (handleClearCompletedTasks)^[n] tasks := by
  induction n with
  | zero => intro tasks t ht _; simpa using ht
  | succ n ih =>
    intro tasks t ht hst
    rw [Function.iterate_succ_apply]
    exact ih _ t (mem_handleClearCompletedTasks.mpr ⟨ht, hst⟩) hst

theorem handleTaskStateChanged_eq (e : InternalTask) (tasks : List Task) :
    handleTaskStateChanged e tasks =
      tasks.map fun t => if t.id = e.id then notifiedTask e t else t := rfl

/-! ### Claims -/

/-- C3: `PruneTerminal` (`handleClearCompletedTasks`) removes exactly the
tasks whose state is `completed`, `error` or `stopped`: an entry survives the
prune iff its state is `running` or `stopping`, every terminal entry is
removed, and a `running`/`stopping` entry survives any number of prune
calls. -/
theorem c3_prune_terminal_exact (tasks : List Task) :
    (∀ t : Task, t ∈ handleClearCompletedTasks tasks ↔
        t ∈ tasks ∧ (t.state = .running ∨ t.state = .stopping)) ∧
    (∀ t ∈ tasks, isTerminal t.state = true → t ∉ handleClearCompletedTasks tasks) ∧
    (∀ (n : Nat) (t : Task), t ∈ tasks → t.state = .running ∨ t.state = .stopping →
        t ∈ (handleClearCompletedTasks)^[n] tasks) := by
  refine ⟨fun t => mem_handleClearCompletedTasks, ?_, ?_⟩
  · intro t _ hterm hmem
    have h2 := (mem_handleClearCompletedTasks.mp hmem).2
    rw [← isTerminal_eq_false_iff] at h2
    rw [hterm] at h2
    cases h2
  · intro n t ht hst
    exact mem_clear_iterate n tasks t ht hst

theorem c3_prune_terminal_exact_witness :
    (⟨"a", "x", .running, none, none⟩ : Task) ∈
      (handleClearCompletedTasks)^[3] [⟨"a", "x", .running, none, none⟩] :=
  (c3_prune_terminal_exact _).2.2 3 _ (by simp) (Or.inl rfl)

/-- C9: `handleTaskStateChanged` for a payload with id `X` preserves the
length of the task list, leaves every entry whose id differs from `X` exactly
unchanged, and rewrites the entries whose id is `X` to carry the payload's
state, decoded result and error. -/
theorem c9_state_change_frame (e : InternalTask) (tasks : List Task) :
    ((handleTaskStateChanged e tasks).length = tasks.length) ∧
    (∀ (i : Nat) (t : Task), tasks[i]? = some t → t.id ≠ e.id →
        (handleTaskStateChanged e tasks)[i]? = some t) ∧
    (∀ (i : Nat) (t : Task), tasks[i]? = some t → t.id = e.id →
        (handleTaskStateChanged e tasks)[i]? = some (notifiedTask e t)) := by
  refine ⟨by simp [handleTaskStateChanged], ?_, ?_⟩
  · intro i t ht hid
    simp [handleTaskStateChanged_eq, List.getElem?_map, ht, hid]
  · intro i t ht hid
    simp [handleTaskStateChanged_eq, List.getElem?_map, ht, hid]

theorem c9_state_change_frame_witness :
    (handleTaskStateChanged ⟨"b", .completed, none, none⟩
        [⟨"a", "x", .running, none, none⟩])[0]? =
      some ⟨"a", "x", .running, none, none⟩ :=
  (c9_state_change_frame _ _).2.1 0 _ rfl (by decide)

/-- C10: a rejected backend invocation is contained to the task it was issued
for.  For `handleRunCode` with a rejected `run_task`: the list keeps every
other entry unchanged and the appended entry (alone) ends in state `error`
with the rejection recorded in its `result`.  For `handleStopTask` with a
rejected `stop_task`: entries with a different id are unchanged and the
matching entry ends in state `error` with the rejection in its `result`.
Both handlers catch the rejection and return a list (they do not rethrow). -/
theorem c10_invoke_rejection_contained (newTaskId code taskId : String) (err : Json)
    (tasks : List Task) :
    ((handleRunCode newTaskId code (.rejected err) tasks).length = tasks.length + 1) ∧
    (∀ (i : Nat) (t : Task), tasks[i]? = some t → t.id ≠ newTaskId →
        (handleRunCode newTaskId code (.rejected err) tasks)[i]? = some t) ∧
    ((handleRunCode newTaskId code (.rejected err) tasks)[tasks.length]? =
        some (Task.mk newTaskId code .error (some (rejectionRecord err)) none)) ∧
    (∀ (i : Nat) (t : Task), tasks[i]? = some t → t.id ≠ taskId →
        ((handleStopTask taskId (.rejected err) tasks).1)[i]? = some t) ∧
    (∀ (i : Nat) (t : Task), tasks[i]? = some t → t.id = taskId →
        ((handleStopTask taskId (.rejected err) tasks).1)[i]? =
          some (Task.mk t.id t.code .error (some (rejectionRecord err)) t.error)) := by
  refine ⟨by simp [handleRunCode, failTaskUpdate], ?_, ?_, ?_, ?_⟩
  · intro i t ht hid
    have hlt : i < tasks.length := (List.getElem?_eq_some.mp ht).1
    show (failTaskUpdate newTaskId err
      (tasks ++ [Task.mk newTaskId code .running none none]))[i]? = some t
    rw [failTaskUpdate, List.map_append,
      List.getElem?_append_left (by simpa using hlt), List.getElem?_map, ht]
    simp [hid]
  · simp [handleRunCode, failTaskUpdate, List.getElem?_map]
  · intro i t ht hid
    simp [handleStopTask, failTaskUpdate, stopTaskUpdate, List.getElem?_map, ht, hid]
  · intro i t ht hid
    simp [handleStopTask, failTaskUpdate, stopTaskUpdate, List.getElem?_map, ht, hid]

theorem c10_invoke_rejection_contained_witness :
    (handleRunCode "b" "y" (.rejected (.str "boom")) [⟨"a", "x", .running, none, none⟩])[0]? =
      some ⟨"a", "x", .running, none, none⟩ :=
  (c10_invoke_rejection_contained "b" "y" "z" (.str "boom") _).2.1 0 _ rfl (by decide)

/-- C4 counterexample: calling `handleStopTask` on a task that is already in
the terminal state `completed` is not a no-op — the entry is moved to state
`stopping`. -/
theorem c4_counterexample_cancel_terminal :
    (handleStopTask "a" .ok [⟨"a", "x", .completed, none, none⟩]).1 =
      [⟨"a", "x", .stopping, none, none⟩] ∧
    isTerminal .completed = true ∧ TaskState.stopping ≠ TaskState.completed :=
  ⟨rfl, rfl, by decide⟩

/-- C4 (amended): `handleStopTask` always issues the `stop_task` command for
exactly the given id (which, per the spec's backend, signals that worker's
cancellation channel), moves the matching entry to state `stopping` whatever
its current state (the UI offers Cancel only on `running` tasks), never
fails, and is a no-op on the list when the task is already `stopping`. -/
theorem c4_cancel_sets_stopping (taskId : String) (o : InvokeOutcome) (tasks : List Task) :
    ((handleStopTask taskId o tasks).2 = .stop_task taskId) ∧
    (∀ (i : Nat) (t : Task), tasks[i]? = some t → t.id = taskId →
        ((handleStopTask taskId .ok tasks).1)[i]? =
          some (Task.mk t.id t.code .stopping t.result t.error)) ∧
    ((∀ t ∈ tasks, t.id = taskId → t.state = .stopping) →
        (handleStopTask taskId .ok tasks).1 = tasks) := by
  refine ⟨by cases o <;> rfl, ?_, ?_⟩
  · intro i t ht hid
    simp [handleStopTask, stopTaskUpdate, List.getElem?_map, ht, hid]
  · intro h
    show stopTaskUpdate taskId tasks = tasks
    apply task_map_eq_self
    intro t ht
    by_cases hid : t.id = taskId
    · have hst := h t ht hid
      cases t
      simp_all
    · simp [hid]

theorem c4_cancel_sets_stopping_witness :
    (handleStopTask "a" .ok [⟨"a", "x", .stopping, none, none⟩]).1 =
      [⟨"a", "x", .stopping, none, none⟩] :=
  (c4_cancel_sets_stopping "a" .ok _).2.2 (by
    intro t ht _
    rw [List.mem_singleton] at ht
    rw [ht])

/-- C7: the `RuntimeExtension` object installed by `bootstrap.js` has exactly
the two members `returnValue` (record a return value) and `documentDir`
(resolve a directory path); `returnValue` issues the `return_value` op tagged
with the installing task's id and the serialized value, and any op carrying a
task id carries exactly the id of the task the bridge was installed for. -/
theorem c7_bridge_surface (taskId tid : String) (c : Capability) (v : Json) :
    (runtimeExtensionMembers.map Prod.fst = ["returnValue", "documentDir"]) ∧
    (invokeCapability taskId .recordReturnValue v =
        .return_value taskId (JSON.stringify v)) ∧
    (invokeCapability taskId .resolveDirectoryPath v = .document_dir) ∧
    (opTaskId (invokeCapability taskId c v) = some tid → tid = taskId) := by
  refine ⟨rfl, rfl, rfl, ?_⟩
  cases c <;> simp [invokeCapability, opTaskId]
  intro h
  exact h.symm

theorem c7_bridge_surface_witness :
    ("t1" : String) = "t1" ∧
    invokeCapability "t1" .recordReturnValue (.num 1) = .return_value "t1" "1" :=
  ⟨(c7_bridge_surface "t1" "t1" .recordReturnValue (.num 1)).2.2.2 rfl,
   (c7_bridge_surface "t1" "t1" .recordReturnValue (.num 1)).2.1⟩

/-! ### Membership through the id-guarded map updates -/

theorem mem_update_map {g : Task → Task} {tid : String} (hg : ∀ t, (g t).id = t.id)
    {u : Task} {tasks : List Task}
    (hu : u ∈ tasks.map fun t => if t.id = tid then g t else t) :
    ∃ t ∈ tasks, t.id = u.id ∧ (u = t ∨ (u = g t ∧ t.id = tid)) := by
  obtain ⟨t, ht, heq⟩ := List.mem_map.mp hu
  by_cases hid : t.id = tid
  · rw [if_pos hid] at heq
    exact ⟨t, ht, by rw [← heq, hg], Or.inr ⟨heq.symm, hid⟩⟩
  · rw [if_neg hid] at heq
    exact ⟨t, ht, by rw [← heq], Or.inl heq.symm⟩

theorem internalToTaskState_ne_running {s : InternalState} (h : s ≠ .running) :
    internalToTaskState s ≠ TaskState.running := by
  cases s <;> simp_all [internalToTaskState]

theorem mem_stopTaskUpdate {taskId : String} {u : Task} {tasks : List Task}
    (hu : u ∈ stopTaskUpdate taskId tasks) (hrun : u.state = .running) :
    ∃ t ∈ tasks, t.id = u.id ∧ t.state = .running := by
  obtain ⟨t, ht, hid, h | h⟩ := mem_update_map (g := fun t => Task.mk t.id t.code .stopping t.result t.error) (fun t => rfl) hu
  · exact ⟨t, ht, hid, by rw [← h, hrun]⟩
  · rw [h.1] at hrun; cases hrun

theorem mem_failTaskUpdate {taskId : String} {err : Json} {u : Task} {tasks : List Task}
    (hu : u ∈ failTaskUpdate taskId err tasks) (hrun : u.state = .running) :
    u ∈ tasks := by
  obtain ⟨t, ht, _, h | h⟩ := mem_update_map
    (g := fun t => Task.mk t.id t.code .error (some (rejectionRecord err)) t.error)
    (fun t => rfl) hu
  · rw [h]; exact ht
  · rw [h.1] at hrun; cases hrun

theorem mem_replayUpdate {taskId : String} {u : Task} {tasks : List Task}
    (hu : u ∈ replayUpdate taskId tasks) (hrun : u.state = .running) :
    u.id = taskId ∨ ∃ t ∈ tasks, t.id = u.id ∧ t.state = .running := by
  obtain ⟨t, ht, hid, h | h⟩ := mem_update_map
    (g := fun t => Task.mk t.id t.code .running t.result t.error) (fun t => rfl) hu
  · exact Or.inr ⟨t, ht, hid, by rw [← h, hrun]⟩
  · exact Or.inl (by rw [h.1]; exact h.2)

/-- C1: the state field is monotonic out of terminal states.  After any
notification (whose payload reports an actual transition, hence a state other
than `running`) and after the stop, prune and rejection handlers, an entry
can be in state `running` only if an entry with the same id was already
`running` before — so a terminal entry never returns to `running`.  The two
`run_task` paths are the exception the claim allows: `handleRunCode` appends
a brand-new running entry under a fresh id, and `handleReplayTask` restarts
exactly the replayed id as a logically fresh lifecycle instance. -/
theorem c1_no_return_to_running_after_terminal (e : InternalTask)
    (he : e.state ≠ InternalState.running) (taskId newTaskId code : String)
    (tasks : List Task) :
    (∀ u ∈ handleTaskStateChanged e tasks, u.state = .running →
        ∃ t ∈ tasks, t.id = u.id ∧ t.state = .running) ∧
    (∀ (o : InvokeOutcome) (u : Task), u ∈ (handleStopTask taskId o tasks).1 →
        u.state = .running → ∃ t ∈ tasks, t.id = u.id ∧ t.state = .running) ∧
    (∀ u ∈ handleClearCompletedTasks tasks, u.state = .running →
        ∃ t ∈ tasks, t.id = u.id ∧ t.state = .running) ∧
    (∀ (o : InvokeOutcome) (u : Task), u ∈ handleRunCode newTaskId code o tasks →
        u.state = .running →
        u.id = newTaskId ∨ ∃ t ∈ tasks, t.id = u.id ∧ t.state = .running) ∧
    (∀ (o : InvokeOutcome) (u : Task), u ∈ handleReplayTask taskId o tasks →
        u.state = .running →
        u.id = taskId ∨ ∃ t ∈ tasks, t.id = u.id ∧ t.state = .running) := by
  refine ⟨?_, ?_, ?_, ?_, ?_⟩
  · intro u hu hrun
    rw [handleTaskStateChanged_eq] at hu
    obtain ⟨t, ht, hid, h | h⟩ := mem_update_map (g := notifiedTask e) (fun t => rfl) hu
    · exact ⟨t, ht, hid, by rw [← h, hrun]⟩
    · rw [h.1] at hrun
      exact absurd hrun (internalToTaskState_ne_running he)
  · intro o u hu hrun
    cases o with
    | ok => exact mem_stopTaskUpdate hu hrun
    | rejected err =>
      exact mem_stopTaskUpdate (mem_failTaskUpdate (u := u) hu hrun) hrun
  · intro u hu hrun
    exact ⟨u, (mem_handleClearCompletedTasks.mp hu).1, rfl, hrun⟩
  · intro o u hu hrun
    have key : u ∈ tasks ++ [Task.mk newTaskId code .running none none] →
        u.id = newTaskId ∨ ∃ t ∈ tasks, t.id = u.id ∧ t.state = .running := by
      intro hmem
      rcases List.mem_append.mp hmem with h | h
      · exact Or.inr ⟨u, h, rfl, hrun⟩
      · rw [List.mem_singleton] at h
        exact Or.inl (by rw [h])
    cases o with
    | ok => exact key hu
    | rejected err => exact key (mem_failTaskUpdate (u := u) hu hrun)
  · intro o u hu hrun
    cases o with
    | ok => exact mem_replayUpdate hu hrun
    | rejected err =>
      exact mem_replayUpdate (mem_failTaskUpdate (u := u) hu hrun) hrun

theorem c1_no_return_to_running_after_terminal_witness :
    ∃ t ∈ ([⟨"a", "x", .running, none, none⟩] : List Task),
      t.id = "a" ∧ t.state = .running :=
  (c1_no_return_to_running_after_terminal ⟨"b", .completed, none, none⟩ (by decide)
      "z" "w" "" [⟨"a", "x", .running, none, none⟩]).2.2.1
    ⟨"a", "x", .running, none, none⟩ (by simp [handleClearCompletedTasks]) rfl

/-! ### Submission (spec-modelled backend) -/

theorem lookup_set_running (reg : Registry) (taskId : String) (st : TaskState)
    (hl : reg.lookup taskId = some st) :
    (reg.map fun p => if p.1 = taskId then (p.1, TaskState.running) else p).lookup taskId =
      some TaskState.running := by
  induction reg with
  | nil => cases hl
  | cons a es ih =>
    obtain ⟨k, v⟩ := a
    by_cases h : taskId = k
    · subst h
      rw [List.map_cons]
      have hkid : (if (taskId, v).1 = taskId then ((taskId, v).1, TaskState.running)
          else (taskId, v)) = (taskId, TaskState.running) := by simp
      rw [hkid, List.lookup]
      simp
    · rw [List.lookup] at hl
      rw [List.map_cons]
      have hkid : (if (k, v).1 = taskId then ((k, v).1, TaskState.running) else (k, v)) =
          (k, v) := by simp [Ne.symm h]
      rw [hkid, List.lookup]
      rw [beq_eq_false_iff_ne.mpr h] at hl ⊢
      exact ih hl

theorem submitTask_lookup_some {reg : Registry} {taskId : String} {st : TaskState}
    (hl : reg.lookup taskId = some st) :
    submitTask reg taskId =
      if isTerminal st then
        .ok (reg.map fun p => if p.1 = taskId then (p.1, TaskState.running) else p)
      else .error .DuplicateTaskError := by
  unfold submitTask
  rw [hl]

theorem submitTask_lookup_none {reg : Registry} {taskId : String}
    (hl : reg.lookup taskId = none) :
    submitTask reg taskId = .ok ((taskId, TaskState.running) :: reg) := by
  unfold submitTask
  rw [hl]

theorem lookup_submitTask_ok {reg : Registry} {taskId : String} {reg' : Registry}
    (h : submitTask reg taskId = .ok reg') :
    reg'.lookup taskId = some TaskState.running := by
  cases hl : reg.lookup taskId with
  | none =>
    rw [submitTask_lookup_none hl] at h
    injection h with h
    rw [← h, List.lookup]
    simp
  | some st =>
    rw [submitTask_lookup_some hl] at h
    by_cases hterm : isTerminal st = true
    · rw [if_pos hterm] at h
      injection h with h
      rw [← h]
      exact lookup_set_running reg taskId st hl
    · rw [if_neg hterm] at h
      cases h

/-- C2: `Submit` (`run_task`) fails with `DuplicateTaskError` while the id is
registered in a non-terminal state — in particular a second `Submit`
immediately after a successful one fails — and a replay `Submit` under the
same id succeeds exactly when the registered instance is terminal,
re-registering the id as `running`. -/
theorem c2_duplicate_submit_rejected (reg : Registry) (taskId : String) :
    (∀ reg' : Registry, submitTask reg taskId = .ok reg' →
        submitTask reg' taskId = .error .DuplicateTaskError) ∧
    (∀ st : TaskState, reg.lookup taskId = some st → isTerminal st = false →
        submitTask reg taskId = .error .DuplicateTaskError) ∧
    (∀ st : TaskState, reg.lookup taskId = some st → isTerminal st = true →
        ∃ reg' : Registry, submitTask reg taskId = .ok reg' ∧
          reg'.lookup taskId = some TaskState.running) := by
  refine ⟨?_, ?_, ?_⟩
  · intro reg' h
    rw [submitTask_lookup_some (lookup_submitTask_ok h)]
    simp [isTerminal]
  · intro st hl hterm
    rw [submitTask_lookup_some hl, hterm]
    simp
  · intro st hl hterm
    refine ⟨_, ?_, lookup_set_running reg taskId st hl⟩
    rw [submitTask_lookup_some hl, hterm]
    simp

theorem c2_duplicate_submit_rejected_witness :
    submitTask [("a", TaskState.completed)] "a" = .ok [("a", TaskState.running)] ∧
    submitTask [("a", TaskState.running)] "a" = .error .DuplicateTaskError :=
  ⟨rfl, (c2_duplicate_submit_rejected [("a", TaskState.completed)] "a").1
    [("a", TaskState.running)] rfl⟩

/-- C5 counterexample: the running-to-stopping transition is not published as
a notification.  The payload type of `task-state-changed` has exactly the
four states `running`, `completed`, `error`, `stopped` — enumerated below,
none of which maps to `stopping` — while `handleStopTask` nevertheless
performs the running-to-stopping transition locally. -/
theorem c5_counterexample_stopping_unpublished :
    internalToTaskState .running = .running ∧
    internalToTaskState .completed = .completed ∧
    internalToTaskState .error = .error ∧
    internalToTaskState .stopped = .stopped ∧
    (handleStopTask "a" .ok [⟨"a", "x", .running, none, none⟩]).1 =
      [⟨"a", "x", .stopping, none, none⟩] :=
  ⟨rfl, rfl, rfl, rfl, rfl⟩

/-- C5 (amended): backend state transitions are published as notification
events carrying the task id, the new state and the result-or-error, and the
handler applies exactly those fields to the matching entry; the
running-to-stopping transition, however, is a local optimistic update of
`handleStopTask` and is never carried by a notification (no payload state
maps to `stopping`). -/
theorem c5_notification_payload_applied (e : InternalTask) (taskId : String)
    (tasks : List Task) :
    (∀ u ∈ handleTaskStateChanged e tasks, u.id = e.id →
        u.state = internalToTaskState e.state ∧ u.result = payloadResult e ∧
        u.error = e.error) ∧
    (internalToTaskState e.state ≠ .stopping) ∧
    (∀ u ∈ (handleStopTask taskId .ok tasks).1, u.id = taskId → u.state = .stopping) := by
  refine ⟨?_, ?_, ?_⟩
  · intro u hu hid
    rw [handleTaskStateChanged_eq] at hu
    obtain ⟨t, _, _, h | h⟩ := mem_update_map (g := notifiedTask e) (fun t => rfl) hu
    · obtain ⟨t2, ht2, heq2⟩ := List.mem_map.mp hu
      by_cases hid2 : t2.id = e.id
      · rw [if_pos hid2] at heq2
        rw [← heq2]
        exact ⟨rfl, rfl, rfl⟩
      · rw [if_neg hid2] at heq2
        rw [← heq2] at hid
        exact absurd hid hid2
    · rw [h.1]
      exact ⟨rfl, rfl, rfl⟩
  · cases e.state <;> simp [internalToTaskState]
  · intro u hu hid
    obtain ⟨t, _, _, h | h⟩ := mem_update_map
      (g := fun t => Task.mk t.id t.code .stopping t.result t.error) (fun t => rfl) hu
    · rename_i hidt
      rw [← h] at hidt
      obtain ⟨t2, ht2, heq2⟩ := List.mem_map.mp hu
      by_cases hid2 : t2.id = taskId
      · rw [if_pos hid2] at heq2
        rw [← heq2]
      · rw [if_neg hid2] at heq2
        rw [← heq2] at hid
        exact absurd hid hid2
    · rw [h.1]

theorem c5_notification_payload_applied_witness :
    (Task.mk "a" "x" .completed none none).state =
        internalToTaskState InternalState.completed ∧
    (Task.mk "a" "x" .completed none none).result =
        payloadResult ⟨"a", .completed, none, none⟩ ∧
    (Task.mk "a" "x" .completed none none).error =
        (⟨"a", .completed, none, none⟩ : InternalTask).error :=
  (c5_notification_payload_applied ⟨"a", .completed, none, none⟩ "z"
      [⟨"a", "x", .running, none, none⟩]).1
    (Task.mk "a" "x" .completed none none)
    (by rw [show handleTaskStateChanged ⟨"a", .completed, none, none⟩
          [⟨"a", "x", .running, none, none⟩] =
          [Task.mk "a" "x" .completed none none] from rfl]
        exact List.mem_singleton.mpr rfl) rfl

/-- C8 counterexample: the `result` field is not present only in state
`completed` — a replayed task keeps the previous run's result while back in
state `running`. -/
theorem c8_counterexample_replay_retains_fields :
    handleReplayTask "a" .ok [⟨"a", "x", .completed, some (.num 1), none⟩] =
      [⟨"a", "x", .running, some (.num 1), none⟩] ∧
    TaskState.running ≠ TaskState.completed ∧
    (some (Json.num 1) : Option Json).isSome = true :=
  ⟨rfl, by decide, rfl⟩

/-- C8 (amended): an entry updated by a state-changed notification carries a
`result` only when the payload carried a `return_value` and an `error` only
when the payload carried one; hence, when the backend attaches
`return_value` only to `completed` payloads and `error` only to `error`
payloads, the notified entry has `result` only in state `completed` and
`error` only in state `error`.  The replay handler, by contrast, keeps the
previous run's `result` and `error` fields on the entry it puts back into
`running`. -/
theorem c8_result_error_follow_notifications (e : InternalTask) (taskId : String)
    (tasks : List Task)
    (hr : ∀ s : String, e.return_value = some s → e.state = InternalState.completed)
    (he : ∀ msg : String, e.error = some msg → e.state = InternalState.error) :
    (∀ u ∈ handleTaskStateChanged e tasks, u.id = e.id →
        (u.result.isSome = true → u.state = .completed) ∧
        (u.error.isSome = true → u.state = .error)) ∧
    (∀ u ∈ replayUpdate taskId tasks,
        ∃ t ∈ tasks, u.result = t.result ∧ u.error = t.error) := by
  constructor
  · intro u hu hid
    rw [handleTaskStateChanged_eq] at hu
    obtain ⟨t2, ht2, heq2⟩ := List.mem_map.mp hu
    by_cases hid2 : t2.id = e.id
    · rw [if_pos hid2] at heq2
      rw [← heq2]
      constructor
      · intro hres
        have hrv : ∃ s : String, e.return_value = some s := by
          unfold notifiedTask payloadResult at hres
          cases hrv : e.return_value with
          | none => rw [hrv] at hres; cases hres
          | some s => exact ⟨s, rfl⟩
        obtain ⟨s, hs⟩ := hrv
        have := hr s hs
        show internalToTaskState e.state = .completed
        rw [this]
        rfl
      · intro herr
        have hmsg : ∃ msg : String, e.error = some msg := by
          unfold notifiedTask at herr
          cases hmsg : e.error with
          | none => rw [hmsg] at herr; cases herr
          | some msg => exact ⟨msg, rfl⟩
        obtain ⟨msg, hmsg⟩ := hmsg
        have := he msg hmsg
        show internalToTaskState e.state = .error
        rw [this]
        rfl
    · rw [if_neg hid2] at heq2
      rw [← heq2] at hid
      exact absurd hid hid2
  · intro u hu
    obtain ⟨t, ht, _, h | h⟩ := mem_update_map
      (g := fun t => Task.mk t.id t.code .running t.result t.error) (fun t => rfl) hu
    · exact ⟨t, ht, by rw [h], by rw [h]⟩
    · exact ⟨t, ht, by rw [h.1], by rw [h.1]⟩

/-! ### The JSON round trip (claim C6)

`returnValue` serializes with `JSON.stringify` and `handleTaskStateChanged`
recovers the value with `JSON.parse`; below the composition is proved to be
the identity on JSON values.  `jsize` (defined with the other definitions
above) is the structural measure that bounds the parser fuel. -/

theorem jsize_pos (v : Json) : 1 ≤ jsize v := by
  cases v <;> simp [jsize]

theorem jsizeElems_pos (vs : List Json) : 1 ≤ jsizeElems vs := by
  cases vs with
  | nil => simp [jsizeElems]
  | cons v vs =>
    have := jsize_pos v
    simp [jsizeElems]
    omega

theorem jsizeMembers_pos (ms : List (String × Json)) : 1 ≤ jsizeMembers ms := by
  cases ms with
  | nil => simp [jsizeMembers]
  | cons m ms =>
    have := jsize_pos m.2
    simp [jsizeMembers]
    omega

theorem digitChar_isDigit {d : Nat} (h : d < 10) : isDigitChar (digitChar d) = true := by
  interval_cases d <;> decide

theorem digitChar_toNat {d : Nat} (h : d < 10) : (digitChar d).toNat = 48 + d := by
  interval_cases d <;> decide

theorem digit_char_ne {c : Char} (h : isDigitChar c = true) :
    c ≠ 'n' ∧ c ≠ 't' ∧ c ≠ 'f' ∧ c ≠ '"' ∧ c ≠ '[' ∧ c ≠ '{' ∧ c ≠ '-' ∧
      c ≠ ']' ∧ c ≠ '}' ∧ c ≠ ',' := by
  simp only [isDigitChar, Bool.and_eq_true, decide_eq_true_eq] at h
  refine ⟨?_, ?_, ?_, ?_, ?_, ?_, ?_, ?_, ?_, ?_⟩ <;>
    · rintro rfl
      exact absurd h (by decide)

theorem parseHexDigit_hexDigitChar {d : Nat} (h : d < 16) :
    parseHexDigit (hexDigitChar d) = some d := by
  interval_cases d <;> decide

theorem ofDigits_natDigitsRev : ∀ fuel m : Nat, m ≤ fuel →
    Nat.ofDigits 10 (natDigitsRev fuel m) = m := by
  intro fuel
  induction fuel with
  | zero =>
    intro m hm
    interval_cases m
    simp [natDigitsRev]
  | succ fuel ih =>
    intro m hm
    rw [natDigitsRev]
    by_cases h0 : m = 0
    · simp [h0]
    · rw [if_neg h0, Nat.ofDigits_cons, ih (m / 10) (by omega)]
      omega

theorem natDigitsRev_lt : ∀ fuel m : Nat, ∀ d ∈ natDigitsRev fuel m, d < 10 := by
  intro fuel
  induction fuel with
  | zero => intro m d hd; simp [natDigitsRev] at hd
  | succ fuel ih =>
    intro m d hd
    rw [natDigitsRev] at hd
    by_cases h0 : m = 0
    · simp [h0] at hd
    · rw [if_neg h0] at hd
      rcases List.mem_cons.mp hd with h | h
      · omega
      · exact ih (m / 10) d h

theorem natDigitsRev_ne_nil {m : Nat} (h : 1 ≤ m) : natDigitsRev m m ≠ [] := by
  obtain ⟨k, rfl⟩ : ∃ k, m = k + 1 := ⟨m - 1, by omega⟩
  rw [natDigitsRev, if_neg (by omega)]
  exact List.cons_ne_nil _ _

theorem natChars_ne_nil {m : Nat} (h : 1 ≤ m) : natChars m ≠ [] := by
  unfold natChars
  simp [natDigitsRev_ne_nil h]

theorem natChars_all_digits (m : Nat) : ∀ c ∈ natChars m, isDigitChar c = true := by
  intro c hc
  unfold natChars at hc
  obtain ⟨d, hd, rfl⟩ := List.mem_map.mp hc
  exact digitChar_isDigit (natDigitsRev_lt m m d (List.mem_reverse.mp hd))

theorem charsToNat_natChars (m : Nat) : charsToNat (natChars m) = m := by
  unfold charsToNat natChars
  rw [List.map_map, List.map_reverse, List.reverse_reverse]
  have hmap : (natDigitsRev m m).map ((fun c => c.toNat - 48) ∘ digitChar) =
      (natDigitsRev m m).map id := by
    apply List.map_congr_left
    intro d hd
    have hlt := natDigitsRev_lt m m d hd
    simp [Function.comp, digitChar_toNat hlt]
  rw [hmap, List.map_id]
  exact ofDigits_natDigitsRev m m le_rfl

theorem intChars_ne_nil (n : Int) : intChars n ≠ [] := by
  unfold intChars
  by_cases hneg : n < 0
  · simp [hneg]
  · rw [if_neg hneg]
    by_cases h0 : n = 0
    · simp [h0]
    · rw [if_neg h0]
      exact natChars_ne_nil (by omega)

theorem takeWhile_digits_append (l1 l2 : List Char)
    (h1 : ∀ c ∈ l1, isDigitChar c = true) (h2 : numStop l2) :
    (l1 ++ l2).takeWhile isDigitChar = l1 ∧ (l1 ++ l2).dropWhile isDigitChar = l2 := by
  induction l1 with
  | nil =>
    rw [List.nil_append]
    cases l2 with
    | nil => exact ⟨rfl, rfl⟩
    | cons c cs =>
      unfold numStop at h2
      simp [List.takeWhile_cons, List.dropWhile_cons, h2]
  | cons c cs ih =>
    have hc := h1 c (by simp)
    have ihr := ih fun d hd => h1 d (List.mem_cons_of_mem c hd)
    simp [List.takeWhile_cons, List.dropWhile_cons, hc, ihr.1, ihr.2]

theorem parseNumber_natChars (m : Nat) (hm : 1 ≤ m) (rest : List Char) (h : numStop rest) :
    parseNumber (natChars m ++ rest) = some (.num (m : Int), rest) := by
  obtain ⟨c, cs, hcons⟩ : ∃ c cs, natChars m = c :: cs := by
    cases hnc : natChars m with
    | nil => exact absurd hnc (natChars_ne_nil hm)
    | cons c cs => exact ⟨c, cs, rfl⟩
  have hdig : isDigitChar c = true := natChars_all_digits m c (by rw [hcons]; simp)
  have htw := takeWhile_digits_append (natChars m) rest (natChars_all_digits m) h
  rw [hcons, List.cons_append, parseNumber,
    if_neg (digit_char_ne hdig).2.2.2.2.2.2.1, ← List.cons_append, ← hcons,
    htw.1, htw.2, if_neg (by simp [natChars_ne_nil hm]), charsToNat_natChars]

theorem parseNumber_intChars (n : Int) (rest : List Char) (h : numStop rest) :
    parseNumber (intChars n ++ rest) = some (.num n, rest) := by
  unfold intChars
  by_cases hneg : n < 0
  · rw [if_pos hneg]
    have hm : 1 ≤ n.natAbs := by omega
    have htw := takeWhile_digits_append (natChars n.natAbs) rest
      (natChars_all_digits n.natAbs) h
    rw [List.cons_append, parseNumber, if_pos rfl, htw.1, htw.2,
      if_neg (by simp [natChars_ne_nil hm]), charsToNat_natChars]
    have : -(n.natAbs : Int) = n := by omega
    rw [this]
  · rw [if_neg hneg]
    by_cases h0 : n = 0
    · subst h0
      rw [if_pos rfl]
      have hd0 : isDigitChar '0' = true := by decide
      have hc0 : charsToNat ['0'] = 0 := by decide
      cases rest with
      | nil => rfl
      | cons c cs =>
        unfold numStop at h
        show parseNumber ('0' :: c :: cs) = _
        rw [parseNumber.eq_def]
        simp [List.takeWhile_cons, List.dropWhile_cons, h, hd0, hc0, Char.reduceEq]
    · rw [if_neg h0]
      have := parseNumber_natChars n.natAbs (by omega) rest h
      rw [this]
      have : (n.natAbs : Int) = n := by omega
      rw [this]

theorem parseStringBody_escape : ∀ cs rest : List Char,
    parseStringBody (escapeList cs ++ '"' :: rest) = some (cs, rest) := by
  intro cs
  induction cs with
  | nil =>
    intro rest
    rw [escapeList, List.nil_append, parseStringBody.eq_def]
    simp
  | cons c cs ih =>
    intro rest
    rw [escapeList, List.append_assoc]
    unfold escapeChar
    by_cases h1 : c = '"'
    · subst h1
      rw [if_pos rfl]
      show parseStringBody ('\\' :: '"' :: (escapeList cs ++ '"' :: rest)) = _
      rw [parseStringBody.eq_def]
      simp only [Char.reduceEq, reduceIte]
      rw [ih, consStr]
    · rw [if_neg h1]
      by_cases h2 : c = '\\'
      · subst h2
        rw [if_pos rfl]
        show parseStringBody ('\\' :: '\\' :: (escapeList cs ++ '"' :: rest)) = _
        rw [parseStringBody.eq_def]
        simp only [Char.reduceEq, reduceIte]
        rw [ih, consStr]
      · rw [if_neg h2]
        by_cases h3 : c = '\x08'
        · subst h3
          rw [if_pos rfl]
          show parseStringBody ('\\' :: 'b' :: (escapeList cs ++ '"' :: rest)) = _
          rw [parseStringBody.eq_def]
          simp only [Char.reduceEq, reduceIte]
          rw [ih, consStr]
        · rw [if_neg h3]
          by_cases h4 : c = '\t'
          · subst h4
            rw [if_pos rfl]
            show parseStringBody ('\\' :: 't' :: (escapeList cs ++ '"' :: rest)) = _
            rw [parseStringBody.eq_def]
            simp only [Char.reduceEq, reduceIte]
            rw [ih, consStr]
          · rw [if_neg h4]
            by_cases h5 : c = '\n'
            · subst h5
              rw [if_pos rfl]
              show parseStringBody ('\\' :: 'n' :: (escapeList cs ++ '"' :: rest)) = _
              rw [parseStringBody.eq_def]
              simp only [Char.reduceEq, reduceIte]
              rw [ih, consStr]
            · rw [if_neg h5]
              by_cases h6 : c = '\x0c'
              · subst h6
                rw [if_pos rfl]
                show parseStringBody ('\\' :: 'f' :: (escapeList cs ++ '"' :: rest)) = _
                rw [parseStringBody.eq_def]
                simp only [Char.reduceEq, reduceIte]
                rw [ih, consStr]
              · rw [if_neg h6]
                by_cases h7 : c = '\r'
                · subst h7
                  rw [if_pos rfl]
                  show parseStringBody ('\\' :: 'r' :: (escapeList cs ++ '"' :: rest)) = _
                  rw [parseStringBody.eq_def]
                  simp only [Char.reduceEq, reduceIte]
                  rw [ih, consStr]
                · rw [if_neg h7]
                  by_cases h8 : c.toNat < 32
                  · rw [if_pos h8]
                    show parseStringBody ('\\' :: 'u' :: '0' :: '0' ::
                      hexDigitChar (c.toNat / 16) :: hexDigitChar (c.toNat % 16) ::
                      (escapeList cs ++ '"' :: rest)) = _
                    rw [parseStringBody.eq_def]
                    simp only [Char.reduceEq, reduceIte]
                    rw [show parseHexDigit '0' = some 0 from by decide,
                      parseHexDigit_hexDigitChar (show c.toNat / 16 < 16 by omega),
                      parseHexDigit_hexDigitChar (show c.toNat % 16 < 16 by omega)]
                    simp only []
                    rw [show ((0 * 16 + 0) * 16 + c.toNat / 16) * 16 + c.toNat % 16 =
                      c.toNat from by omega, Char.ofNat_toNat, ih, consStr]
                  · rw [if_neg h8]
                    show parseStringBody (c :: (escapeList cs ++ '"' :: rest)) = _
                    rw [parseStringBody.eq_def]
                    simp only [reduceIte, if_neg h1, if_neg h2]
                    rw [ih, consStr]

theorem intChars_head (n : Int) :
    ∃ c cs, intChars n = c :: cs ∧ (isDigitChar c = true ∨ c = '-') := by
  unfold intChars
  by_cases hneg : n < 0
  · exact ⟨'-', _, by rw [if_pos hneg], Or.inr rfl⟩
  · rw [if_neg hneg]
    by_cases h0 : n = 0
    · exact ⟨'0', [], by rw [if_pos h0], Or.inl (by decide)⟩
    · rw [if_neg h0]
      cases hnc : natChars n.natAbs with
      | nil => exact absurd hnc (natChars_ne_nil (by omega))
      | cons c cs =>
        refine ⟨c, cs, rfl, Or.inl ?_⟩
        exact natChars_all_digits n.natAbs c (by rw [hnc]; simp)

theorem stringifyChars_head (v : Json) :
    ∃ c cs, stringifyChars v = c :: cs ∧ c ≠ ']' ∧ c ≠ '}' := by
  cases v with
  | null => exact ⟨'n', _, rfl, by decide, by decide⟩
  | bool b =>
    cases b
    · exact ⟨'f', _, rfl, by decide, by decide⟩
    · exact ⟨'t', _, rfl, by decide, by decide⟩
  | num n =>
    obtain ⟨c, cs, hic, hd⟩ := intChars_head n
    refine ⟨c, cs, hic, ?_, ?_⟩ <;>
      rcases hd with hd | hd
    · exact (digit_char_ne hd).2.2.2.2.2.2.2.1
    · subst hd; decide
    · exact (digit_char_ne hd).2.2.2.2.2.2.2.2.1
    · subst hd; decide
  | str s => exact ⟨'"', _, rfl, by decide, by decide⟩
  | arr es =>
    cases es with
    | nil => exact ⟨'[', _, rfl, by decide, by decide⟩
    | cons x xs => exact ⟨'[', _, rfl, by decide, by decide⟩
  | obj ms =>
    cases ms with
    | nil => exact ⟨'{', _, rfl, by decide, by decide⟩
    | cons m ms => exact ⟨'{', _, rfl, by decide, by decide⟩

theorem numStop_arrTail (vs : List Json) (rest : List Char) :
    numStop (arrTailChars vs ++ rest) := by
  cases vs with
  | nil => exact (by decide : isDigitChar ']' = false)
  | cons x xs => exact (by decide : isDigitChar ',' = false)

theorem numStop_objTail (ms : List (String × Json)) (rest : List Char) :
    numStop (objTailChars ms ++ rest) := by
  cases ms with
  | nil => exact (by decide : isDigitChar '}' = false)
  | cons m mss => exact (by decide : isDigitChar ',' = false)

theorem parseValue_to_parseNumber (fuel : Nat) (c : Char) (cs : List Char)
    (h : isDigitChar c = true ∨ c = '-') :
    parseValue (fuel + 1) (c :: cs) = parseNumber (c :: cs) := by
  have hn : c ≠ 'n' := by
    rcases h with h | h
    · exact (digit_char_ne h).1
    · subst h; decide
  have ht : c ≠ 't' := by
    rcases h with h | h
    · exact (digit_char_ne h).2.1
    · subst h; decide
  have hf : c ≠ 'f' := by
    rcases h with h | h
    · exact (digit_char_ne h).2.2.1
    · subst h; decide
  have hq : c ≠ '"' := by
    rcases h with h | h
    · exact (digit_char_ne h).2.2.2.1
    · subst h; decide
  have hbl : c ≠ '[' := by
    rcases h with h | h
    · exact (digit_char_ne h).2.2.2.2.1
    · subst h; decide
  have hbc : c ≠ '{' := by
    rcases h with h | h
    · exact (digit_char_ne h).2.2.2.2.2.1
    · subst h; decide
  rw [parseValue.eq_def]
  simp only [reduceIte, if_neg hn, if_neg ht, if_neg hf, if_neg hq, if_neg hbl,
    if_neg hbc]

theorem parse_stringify_fuel : ∀ fuel : Nat,
    (∀ (v : Json) (rest : List Char), jsize v < fuel → numStop rest →
        parseValue fuel (stringifyChars v ++ rest) = some (v, rest)) ∧
    (∀ (vs : List Json) (rest : List Char), jsizeElems vs < fuel →
        parseArrTail fuel (arrTailChars vs ++ rest) = some (vs, rest)) ∧
    (∀ (ms : List (String × Json)) (rest : List Char), jsizeMembers ms < fuel →
        parseObjTail fuel (objTailChars ms ++ rest) = some (ms, rest)) := by
  intro fuel
  induction fuel with
  | zero =>
    refine ⟨?_, ?_, ?_⟩
    · intro v rest h _; exact absurd h (by omega)
    · intro vs rest h; exact absurd h (by omega)
    · intro ms rest h; exact absurd h (by omega)
  | succ fuel ih =>
    obtain ⟨ihv, iha, iho⟩ := ih
    refine ⟨?_, ?_, ?_⟩
    · intro v rest hsz hstop
      cases v with
      | null =>
        show parseValue (fuel + 1) ('n' :: 'u' :: 'l' :: 'l' :: rest) = _
        rw [parseValue.eq_def]
        simp [Char.reduceEq, expectChars]
      | bool b =>
        cases b
        · show parseValue (fuel + 1) ('f' :: 'a' :: 'l' :: 's' :: 'e' :: rest) = _
          rw [parseValue.eq_def]
          simp [Char.reduceEq, expectChars]
        · show parseValue (fuel + 1) ('t' :: 'r' :: 'u' :: 'e' :: rest) = _
          rw [parseValue.eq_def]
          simp [Char.reduceEq, expectChars]
      | num n =>
        obtain ⟨c, cs, hic, hd⟩ := intChars_head n
        have h1 : stringifyChars (.num n) = intChars n := rfl
        rw [h1, hic, List.cons_append, parseValue_to_parseNumber fuel c _ hd,
          ← List.cons_append, ← hic, parseNumber_intChars n rest hstop]
      | str s =>
        show parseValue (fuel + 1) ('"' :: ((escapeList s.data ++ ['"']) ++ rest)) = _
        rw [List.append_assoc, List.singleton_append, parseValue.eq_def]
        simp only [Char.reduceEq, reduceIte]
        rw [parseStringBody_escape]
        rfl
      | arr es =>
        cases es with
        | nil =>
          show parseValue (fuel + 1) ('[' :: ']' :: rest) = _
          rw [parseValue.eq_def]
          simp only [Char.reduceEq, reduceIte]
          rw [parseArrStart.eq_def]
          simp [Char.reduceEq]
        | cons x xs =>
          obtain ⟨c2, cs2, hx, hne1, _⟩ := stringifyChars_head x
          have hps := jsizeElems_pos xs
          have hpx := jsize_pos x
          have hsz1 : jsize x < fuel := by
            simp only [jsize, jsizeElems] at hsz; omega
          have hsz2 : jsizeElems xs < fuel := by
            simp only [jsize, jsizeElems] at hsz; omega
          show parseValue (fuel + 1)
            ('[' :: ((stringifyChars x ++ arrTailChars xs) ++ rest)) = _
          rw [List.append_assoc, hx, List.cons_append, parseValue.eq_def]
          simp only [Char.reduceEq, reduceIte]
          rw [parseArrStart.eq_def]
          simp only []
          rw [if_neg hne1, ← List.cons_append, ← hx,
            ihv x _ hsz1 (numStop_arrTail xs rest), Option.some_bind,
            iha xs rest hsz2, Option.map_some']
      | obj ms =>
        cases ms with
        | nil =>
          show parseValue (fuel + 1) ('{' :: '}' :: rest) = _
          rw [parseValue.eq_def]
          simp only [Char.reduceEq, reduceIte]
          rw [parseObjStart.eq_def]
          simp [Char.reduceEq]
        | cons m mss =>
          obtain ⟨k, mv⟩ := m
          have hps := jsizeMembers_pos mss
          have hpx := jsize_pos mv
          have hsz1 : jsize mv < fuel := by
            simp only [jsize, jsizeMembers] at hsz; omega
          have hsz2 : jsizeMembers mss < fuel := by
            simp only [jsize, jsizeMembers] at hsz; omega
          show parseValue (fuel + 1)
            ('{' :: ((((('"' :: (escapeList k.data ++ ['"'])) ++ (':' :: stringifyChars mv))
              ++ objTailChars mss) ++ rest))) = _
          rw [parseValue.eq_def]
          simp only [Char.reduceEq, reduceIte, List.cons_append, List.append_assoc,
            List.singleton_append]
          rw [parseObjStart.eq_def]
          simp only [Char.reduceEq, reduceIte]
          rw [parseObjMember, parseStringBody_escape, Option.some_bind]
          simp only [List.nil_append]
          rw [show expectColon (':' :: (stringifyChars mv ++ (objTailChars mss ++ rest))) =
            some (stringifyChars mv ++ (objTailChars mss ++ rest)) from by
              rw [expectColon]; simp, Option.some_bind,
            ihv mv _ hsz1 (numStop_objTail mss rest), Option.some_bind,
            iho mss rest hsz2, Option.map_some', Option.map_some']
          rfl
    · intro vs rest hsz
      cases vs with
      | nil =>
        show parseArrTail (fuel + 1) (']' :: rest) = _
        rw [parseArrTail.eq_def]
        simp [Char.reduceEq]
      | cons x xs =>
        have hps := jsizeElems_pos xs
        have hpx := jsize_pos x
        have hsz1 : jsize x < fuel := by
          simp only [jsizeElems] at hsz; omega
        have hsz2 : jsizeElems xs < fuel := by
          simp only [jsizeElems] at hsz; omega
        show parseArrTail (fuel + 1)
          ((',' :: (stringifyChars x ++ arrTailChars xs)) ++ rest) = _
        rw [List.cons_append, parseArrTail.eq_def]
        simp only [Char.reduceEq, reduceIte]
        rw [List.append_assoc, ihv x _ hsz1 (numStop_arrTail xs rest),
          Option.some_bind, iha xs rest hsz2, Option.map_some']
    · intro ms rest hsz
      cases ms with
      | nil =>
        show parseObjTail (fuel + 1) ('}' :: rest) = _
        rw [parseObjTail.eq_def]
        simp [Char.reduceEq]
      | cons m mss =>
        obtain ⟨k, mv⟩ := m
        have hps := jsizeMembers_pos mss
        have hpx := jsize_pos mv
        have hsz1 : jsize mv < fuel := by
          simp only [jsizeMembers] at hsz; omega
        have hsz2 : jsizeMembers mss < fuel := by
          simp only [jsizeMembers] at hsz; omega
        show parseObjTail (fuel + 1)
          ((',' :: ((('"' :: (escapeList k.data ++ ['"'])) ++ (':' :: stringifyChars mv))
            ++ objTailChars mss)) ++ rest) = _
        rw [List.cons_append, parseObjTail.eq_def]
        simp only [Char.reduceEq, reduceIte, List.cons_append, List.append_assoc,
          List.singleton_append]
        rw [parseObjMember, parseStringBody_escape, Option.some_bind]
        simp only [List.nil_append]
        rw [show expectColon (':' :: (stringifyChars mv ++ (objTailChars mss ++ rest))) =
          some (stringifyChars mv ++ (objTailChars mss ++ rest)) from by
            rw [expectColon]; simp, Option.some_bind,
          ihv mv _ hsz1 (numStop_objTail mss rest), Option.some_bind,
          iho mss rest hsz2, Option.map_some']
        rfl

theorem jsize_le_length : ∀ k : Nat,
    (∀ v : Json, jsize v ≤ k → jsize v ≤ (stringifyChars v).length) ∧
    (∀ vs : List Json, jsizeElems vs ≤ k → jsizeElems vs ≤ (arrTailChars vs).length) ∧
    (∀ ms : List (String × Json), jsizeMembers ms ≤ k →
        jsizeMembers ms ≤ (objTailChars ms).length) := by
  intro k
  induction k with
  | zero =>
    refine ⟨?_, ?_, ?_⟩
    · intro v h; have := jsize_pos v; omega
    · intro vs h; have := jsizeElems_pos vs; omega
    · intro ms h; have := jsizeMembers_pos ms; omega
  | succ k ih =>
    obtain ⟨ihv, iha, iho⟩ := ih
    refine ⟨?_, ?_, ?_⟩
    · intro v h
      cases v with
      | null => simp [jsize, stringifyChars, nullChars]
      | bool b => cases b <;> simp [jsize, stringifyChars, trueChars, falseChars]
      | num n =>
        have h1 : stringifyChars (.num n) = intChars n := rfl
        have h2 : jsize (.num n) = 1 := rfl
        rw [h1, h2]
        exact List.length_pos.mpr (intChars_ne_nil n)
      | str s =>
        have h1 : stringifyChars (.str s) = '"' :: (escapeList s.data ++ ['"']) := rfl
        have h2 : jsize (.str s) = 1 := rfl
        rw [h1, h2]
        simp
      | arr es =>
        cases es with
        | nil => simp [jsize, jsizeElems, stringifyChars]
        | cons x xs =>
          have hx : jsize x ≤ (stringifyChars x).length := by
            apply ihv
            have := jsizeElems_pos xs
            simp only [jsize, jsizeElems] at h
            omega
          have hxs : jsizeElems xs ≤ (arrTailChars xs).length := by
            apply iha
            have := jsize_pos x
            simp only [jsize, jsizeElems] at h
            omega
          have h1 : stringifyChars (.arr (x :: xs)) =
              '[' :: (stringifyChars x ++ arrTailChars xs) := rfl
          rw [h1]
          simp only [jsize, jsizeElems, List.length_cons, List.length_append]
          omega
      | obj ms =>
        cases ms with
        | nil => simp [jsize, jsizeMembers, stringifyChars]
        | cons m mss =>
          have hx : jsize m.2 ≤ (stringifyChars m.2).length := by
            apply ihv
            have := jsizeMembers_pos mss
            simp only [jsize, jsizeMembers] at h
            omega
          have hxs : jsizeMembers mss ≤ (objTailChars mss).length := by
            apply iho
            have := jsize_pos m.2
            simp only [jsize, jsizeMembers] at h
            omega
          have h1 : stringifyChars (.obj (m :: mss)) =
              '{' :: ((quoteChars m.1 ++ ':' :: stringifyChars m.2) ++ objTailChars mss) := by
            obtain ⟨mk2, mv2⟩ := m
            rfl
          rw [h1]
          simp only [jsize, jsizeMembers, List.length_cons, List.length_append]
          omega
    · intro vs h
      cases vs with
      | nil => simp [jsizeElems, arrTailChars]
      | cons x xs =>
        have hx : jsize x ≤ (stringifyChars x).length := by
          apply ihv
          have := jsizeElems_pos xs
          simp only [jsizeElems] at h
          omega
        have hxs : jsizeElems xs ≤ (arrTailChars xs).length := by
          apply iha
          have := jsize_pos x
          simp only [jsizeElems] at h
          omega
        have h1 : arrTailChars (x :: xs) = ',' :: (stringifyChars x ++ arrTailChars xs) := rfl
        rw [h1]
        simp only [jsizeElems, List.length_cons, List.length_append]
        omega
    · intro ms h
      cases ms with
      | nil => simp [jsizeMembers, objTailChars]
      | cons m mss =>
        have hx : jsize m.2 ≤ (stringifyChars m.2).length := by
          apply ihv
          have := jsizeMembers_pos mss
          simp only [jsizeMembers] at h
          omega
        have hxs : jsizeMembers mss ≤ (objTailChars mss).length := by
          apply iho
          have := jsize_pos m.2
          simp only [jsizeMembers] at h
          omega
        have h1 : objTailChars (m :: mss) =
            ',' :: ((quoteChars m.1 ++ ':' :: stringifyChars m.2) ++ objTailChars mss) := by
          obtain ⟨mk2, mv2⟩ := m
          rfl
        rw [h1]
        simp only [jsizeMembers, List.length_cons, List.length_append]
        omega

theorem json_parse_stringify (v : Json) : JSON.parse (JSON.stringify v) = some v := by
  unfold JSON.parse JSON.stringify
  have hdata : ((stringifyChars v).asString).data = stringifyChars v := rfl
  rw [hdata]
  have hlen : jsize v ≤ (stringifyChars v).length :=
    (jsize_le_length (jsize v)).1 v le_rfl
  have h := (parse_stringify_fuel ((stringifyChars v).length + 1)).1 v []
    (by omega) trivial
  rw [List.append_nil] at h
  rw [h]

theorem stringify_ne_empty (v : Json) : JSON.stringify v ≠ "" := by
  obtain ⟨c, cs, h, _, _⟩ := stringifyChars_head v
  intro hcontra
  have hd := congrArg String.data hcontra
  rw [show (JSON.stringify v).data = stringifyChars v from rfl, h] at hd
  cases hd

/-- C6: the value a script hands to the bridge's return-value capability is
exactly the result the host observes for the completed task: the bridge
serializes with `JSON.stringify`, the observer recovers it with
`JSON.parse`, and this round trip is the identity on JSON values — in
particular on `{x:1}`. -/
theorem c6_return_value_roundtrip (v : Json) (tid code : String) :
    (JSON.parse (JSON.stringify v) = some v) ∧
    (handleTaskStateChanged ⟨tid, .completed, some (JSON.stringify v), none⟩
        [⟨tid, code, .running, none, none⟩] =
      [⟨tid, code, .completed, some v, none⟩]) ∧
    (JSON.parse (JSON.stringify (.obj [("x", .num 1)])) =
      some (.obj [("x", .num 1)])) := by
  refine ⟨json_parse_stringify v, ?_, json_parse_stringify _⟩
  rw [handleTaskStateChanged_eq]
  simp only [List.map_cons, List.map_nil, if_true]
  unfold notifiedTask payloadResult
  simp only []
  rw [if_neg (stringify_ne_empty v), json_parse_stringify v]
  rfl

theorem c8_result_error_follow_notifications_witness :
    ∃ t ∈ ([⟨"a", "x", .completed, some (.num 1), none⟩] : List Task),
      (Task.mk "a" "x" .running (some (.num 1)) none).result = t.result ∧
      (Task.mk "a" "x" .running (some (.num 1)) none).error = t.error :=
  (c8_result_error_follow_notifications ⟨"z", .completed, none, none⟩ "a"
      [⟨"a", "x", .completed, some (.num 1), none⟩]
      (fun s h => by cases h) (fun msg h => by cases h)).2
    (Task.mk "a" "x" .running (some (.num 1)) none)
    (by rw [show replayUpdate "a" [⟨"a", "x", .completed, some (.num 1), none⟩] =
          [Task.mk "a" "x" .running (some (.num 1)) none] from rfl]
        exact List.mem_singleton.mpr rfl)

end TauriDeno
